import Mathlib

/-!
Verification of the audio digest pipeline of this repository
(`src/audiobooks/generate_audiobook.py` and `src/audiobooks/upload_mp3.py`):
a shallow embedding of the delivery client, the partitioner, the chapter
calculator and the text chunker, with theorems settling the specification's
claims about them.
-/

namespace AudioDigest

/-! ### Delivery client: `upload_audiobook` / `upload_single_file`

Both source functions share the same retry loop: `max_retries = 5` attempts,
`base_delay_seconds = 10`, exponential backoff `base * 2 ** attempt` slept
after a retriable failure unless it was the last attempt.
-/

/-- Outcome of one upload attempt, as distinguished by the source's
`try`/`except` blocks: an HTTP response carrying a status code
(`response.raise_for_status()` raises `HTTPError` exactly when
`400 <= status < 600`), a transport-level error
(`requests.exceptions.RequestException`: timeout, connection failure, DNS),
or a missing local file (`FileNotFoundError` raised by `open`). -/
inductive AttemptOutcome where
  | http (status : Nat)
  | transportFailure
  | fileMissing
deriving DecidableEq

/-- How one attempt's outcome steers the loop. -/
inductive StepClass where
  | ok
  | retriable
  | fatal
deriving DecidableEq

/-- Classification performed by the source's handlers: a status outside
[400, 600) does not raise, so the function returns `True`; an `HTTPError`
with `500 <= status < 600` is retried; any other `HTTPError` (4xx) returns
`False` immediately; a `RequestException` is retried; a missing file returns
`False` immediately. -/
def classify : AttemptOutcome → StepClass
  | .http s => if 400 ≤ s ∧ s < 600 then (if 500 ≤ s then .retriable else .fatal) else .ok
  | .transportFailure => .retriable
  | .fileMissing => .fatal

def maxRetries : Nat := 5

def baseDelaySeconds : Nat := 10

/-- Observable result of the upload function: the returned boolean, the number
of loop iterations (attempts) performed, and the backoff delays slept, in
order (`delays.get k` is slept between attempt `k` and attempt `k + 1`,
0-based). -/
structure UploadOutcome where
  success : Bool
  attempts : Nat
  delays : List Nat
deriving DecidableEq

/-- The retry loop of `upload_audiobook`, from 0-based attempt index `attempt`
with `remaining` loop iterations left (initially `maxRetries`); `resps k` is
the outcome of the `k`-th attempt. After a retriable failure the source sleeps
`base_delay_seconds * (2 ** attempt)` seconds, except when this was the last
attempt (`attempt < max_retries - 1` guards the sleep). -/
def uploadFrom (resps : Nat → AttemptOutcome) : Nat → Nat → UploadOutcome
  | _, 0 => ⟨false, 0, []⟩
  | attempt, r + 1 =>
    match classify (resps attempt) with
    | .ok => ⟨true, 1, []⟩
    | .fatal => ⟨false, 1, []⟩
    | .retriable =>
      let rest := uploadFrom resps (attempt + 1) r
      if attempt < maxRetries - 1 then
        ⟨rest.success, rest.attempts + 1, baseDelaySeconds * 2 ^ attempt :: rest.delays⟩
      else
        ⟨rest.success, rest.attempts + 1, rest.delays⟩

/-- `upload_audiobook` (equally `upload_single_file`), as a function of the
sequence of per-attempt outcomes. -/
def uploadAudiobook (resps : Nat → AttemptOutcome) : UploadOutcome :=
  uploadFrom resps 0 maxRetries

/-- A 5xx status or a transport error is classified retriable. -/
lemma classify_retriable_of (o : AttemptOutcome)
    (hret : o = AttemptOutcome.transportFailure ∨
      ∃ s, 500 ≤ s ∧ s < 600 ∧ o = AttemptOutcome.http s) :
    classify o = StepClass.retriable := by
  rcases hret with h | ⟨s, hs1, hs2, h⟩
  · subst h; rfl
  · subst h
    simp only [classify]
    rw [if_pos ⟨by omega, hs2⟩, if_pos hs1]

/-- Claim C1: with `n - 1` retriable failures (5xx or transport errors)
followed by a 2xx, upload returns `true` after exactly `n` attempts
(`n ≤ 5`); the backoff delay slept before 0-based attempt `k` (for `k ≥ 1`)
is `10 * 2 ^ (k - 1)` seconds — the list of slept delays is
`[10 * 2 ^ 0, …, 10 * 2 ^ (n - 2)]` — and no delay precedes the first
attempt; and with retriable failures on all 5 attempts, the function returns
`false` (rather than raising) after 5 attempts and 4 sleeps. -/
theorem C1_upload_retry_backoff (n : Nat) (o : AttemptOutcome)
    (h1 : 1 ≤ n) (h5 : n ≤ 5)
    (hret : o = AttemptOutcome.transportFailure ∨
      ∃ s, 500 ≤ s ∧ s < 600 ∧ o = AttemptOutcome.http s) :
    uploadAudiobook (fun k => if k < n - 1 then o else AttemptOutcome.http 200) =
      ⟨true, n, (List.range (n - 1)).map (fun k => 10 * 2 ^ k)⟩ ∧
    uploadAudiobook (fun _ => o) = ⟨false, 5, [10, 20, 40, 80]⟩ := by
  have hcl := classify_retriable_of o hret
  have hok : classify (AttemptOutcome.http 200) = StepClass.ok := rfl
  constructor
  · interval_cases n <;>
      simp [uploadAudiobook, uploadFrom, maxRetries, baseDelaySeconds, hcl,
        hok, List.range_succ]
  · simp [uploadAudiobook, uploadFrom, maxRetries, baseDelaySeconds, hcl]

/-- Witness for C1 at `n = 3` with transport errors. -/
theorem C1_upload_retry_backoff_witness :
    uploadAudiobook
        (fun k => if k < 3 - 1 then AttemptOutcome.transportFailure
          else AttemptOutcome.http 200) =
      ⟨true, 3, [10, 20]⟩ ∧
    uploadAudiobook (fun _ => AttemptOutcome.transportFailure) =
      ⟨false, 5, [10, 20, 40, 80]⟩ := by
  have h := C1_upload_retry_backoff 3 AttemptOutcome.transportFailure
    (by decide) (by decide) (Or.inl rfl)
  simpa [List.range_succ] using h

/-- Claim C6: a non-5xx HTTP error (any 4xx, e.g. a single 403) on the first
attempt yields exactly one attempt and an immediate `false` with no backoff
sleep; a missing local file likewise. -/
theorem C6_fatal_no_retry (resps respsM : Nat → AttemptOutcome) (s : Nat)
    (h4 : 400 ≤ s) (h5 : s < 500) (hr : resps 0 = AttemptOutcome.http s)
    (hm : respsM 0 = AttemptOutcome.fileMissing) :
    uploadAudiobook resps = ⟨false, 1, []⟩ ∧
    uploadAudiobook respsM = ⟨false, 1, []⟩ := by
  have hcl : classify (resps 0) = StepClass.fatal := by
    rw [hr]
    simp only [classify]
    rw [if_pos ⟨h4, by omega⟩, if_neg (by omega)]
  have hclM : classify (respsM 0) = StepClass.fatal := by rw [hm]; rfl
  constructor
  · simp [uploadAudiobook, uploadFrom, maxRetries, hcl]
  · simp [uploadAudiobook, uploadFrom, maxRetries, hclM]

/-- Witness for C6: a single 403, and a missing file. -/
theorem C6_fatal_no_retry_witness :
    uploadAudiobook (fun _ => AttemptOutcome.http 403) = ⟨false, 1, []⟩ ∧
    uploadAudiobook (fun _ => AttemptOutcome.fileMissing) = ⟨false, 1, []⟩ :=
  C6_fatal_no_retry (fun _ => AttemptOutcome.http 403)
    (fun _ => AttemptOutcome.fileMissing) 403 (by decide) (by decide) rfl rfl

/-! ### Partitioner: the size-driven split of `generate_and_upload_audio`
and `split_and_upload_chunks`

Both places use the same algorithm: if the encoded size (in MB) is within
`MAX_UPLOAD_SIZE_MB` upload one file; otherwise
`num_chunks = math.ceil(size_mb / MAX_UPLOAD_SIZE_MB)`,
`chunk_duration_ms = math.ceil(len(audio) / num_chunks)`, and chunk `i`
(0-based) is `audio[i*d : min((i+1)*d, len(audio))]`, exported as
`..._part_{i+1}_of_{num_chunks}.mp3`. Sizes are modelled as exact rationals
(the source's float division of a byte count by `1024 * 1024` is exact in
binary floating point for realistic sizes). -/

/-- One produced Part: its filename and the time slice (in ms) of the full
audio it covers. -/
structure Part where
  filename : String
  startMs : Nat
  endMs : Nat
deriving DecidableEq, Inhabited

/-- `math.ceil(a / b)` for natural `a`, `b` (`b > 0`), as used for
`chunk_duration_ms = math.ceil(len(full_audio_segment) / num_chunks)`. -/
def ceilingDiv (a b : Nat) : Nat := (a + b - 1) / b

/-- `num_chunks = math.ceil(size_mb / MAX_UPLOAD_SIZE_MB)`. -/
def numParts (sizeMB ceilingMB : ℚ) : Nat := (Int.ceil (sizeMB / ceilingMB)).toNat

/-- Filename of the `i`-th part (1-based), as built by the source:
`f"{basename}_part_{i+1}_of_{num_chunks}.mp3"`. -/
def partFilename (baseName : String) (i n : Nat) : String :=
  baseName ++ "_part_" ++ toString i ++ "_of_" ++ toString n ++ ".mp3"

/-- The Parts produced for one date: the decision rule and split of
`generate_and_upload_audio` (ceiling 15.0 MB) and `upload_audiobook` /
`split_and_upload_chunks` in `upload_mp3.py` (ceiling 35.0 MB), with the
ceiling as a parameter. -/
def partitionEncoded (baseName : String) (sizeMB ceilingMB : ℚ)
    (totalDurationMs : Nat) : List Part :=
  if sizeMB ≤ ceilingMB then
    [⟨baseName ++ ".mp3", 0, totalDurationMs⟩]
  else
    let n := numParts sizeMB ceilingMB
    let d := ceilingDiv totalDurationMs n
    (List.range n).map (fun i =>
      ⟨partFilename baseName (i + 1) n, i * d, min ((i + 1) * d) totalDurationMs⟩)

lemma ceilingDiv_eq_ceilDiv (a b : Nat) : ceilingDiv a b = a ⌈/⌉ b :=
  (Nat.ceilDiv_eq_add_pred_div a b).symm

/-- The slices cover the whole duration: `total ≤ n * ceilingDiv total n`. -/
lemma le_mul_ceilingDiv (total n : Nat) (hn : 0 < n) :
    total ≤ n * ceilingDiv total n := by
  rw [ceilingDiv_eq_ceilDiv]
  simpa [smul_eq_mul] using le_smul_ceilDiv (α := ℕ) (b := total) hn

lemma getD_map_range {α : Type} (f : Nat → α) (n i : Nat) (dflt : α)
    (hi : i < n) : (((List.range n).map f).getD i dflt) = f i := by
  rw [List.getD_eq_getElem?_getD, List.getElem?_map, List.getElem?_range hi]
  rfl

/-- The multi-part branch of `partitionEncoded`, elementwise. -/
lemma partitionEncoded_multi (baseName : String) (sizeMB ceilingMB : ℚ)
    (total : Nat) (hlt : ceilingMB < sizeMB) (i : Nat)
    (hi : i < numParts sizeMB ceilingMB) :
    (partitionEncoded baseName sizeMB ceilingMB total).getD i default =
      ⟨partFilename baseName (i + 1) (numParts sizeMB ceilingMB),
        i * ceilingDiv total (numParts sizeMB ceilingMB),
        min ((i + 1) * ceilingDiv total (numParts sizeMB ceilingMB)) total⟩ := by
  rw [partitionEncoded, if_neg (not_le.mpr hlt)]
  exact getD_map_range _ _ _ _ hi

lemma numParts_37_15 : numParts 37 15 = 3 := by
  have h : Int.ceil ((37 : ℚ) / 15) = 3 := by norm_num [Int.ceil_eq_iff]
  simp [numParts, h]

/-- Claim C2, amended: if the encoded size is within the ceiling exactly one
Part covering the whole duration is produced; otherwise
`n = ceil(size / ceiling)` Parts are produced, the `i`-th (0-based) covering
the time slice `[i * d, min ((i + 1) * d, total))` for
`d = ceil(total / n)` — so every non-last Part has duration exactly `d`
whenever `(n - 1) * d ≤ total` (all realistic inputs), the last possibly
shorter — with filenames suffixed `_part_{i+1}_of_{n}` in order; and a
37 MB size with a 15 MB ceiling yields exactly 3 Parts so named. -/
theorem C2_partition_rule (base : String) (sizeMB ceilingMB : ℚ) (total : Nat) :
    (sizeMB ≤ ceilingMB →
      partitionEncoded base sizeMB ceilingMB total = [⟨base ++ ".mp3", 0, total⟩]) ∧
    (ceilingMB < sizeMB →
      (partitionEncoded base sizeMB ceilingMB total).length = numParts sizeMB ceilingMB ∧
      (∀ i, i < numParts sizeMB ceilingMB →
        (partitionEncoded base sizeMB ceilingMB total).getD i default =
          ⟨partFilename base (i + 1) (numParts sizeMB ceilingMB),
            i * ceilingDiv total (numParts sizeMB ceilingMB),
            min ((i + 1) * ceilingDiv total (numParts sizeMB ceilingMB)) total⟩) ∧
      ((numParts sizeMB ceilingMB - 1) * ceilingDiv total (numParts sizeMB ceilingMB) ≤ total →
        ∀ i, i + 1 < numParts sizeMB ceilingMB →
          ((partitionEncoded base sizeMB ceilingMB total).getD i default).endMs -
            ((partitionEncoded base sizeMB ceilingMB total).getD i default).startMs =
            ceilingDiv total (numParts sizeMB ceilingMB))) ∧
    (partitionEncoded base 37 15 total).map Part.filename =
      [partFilename base 1 3, partFilename base 2 3, partFilename base 3 3] := by
  refine ⟨fun hle => by rw [partitionEncoded, if_pos hle], fun hlt => ?_, ?_⟩
  · refine ⟨?_, fun i hi => partitionEncoded_multi base sizeMB ceilingMB total hlt i hi, ?_⟩
    · rw [partitionEncoded, if_neg (not_le.mpr hlt)]
      simp
    · intro hfit i hi
      rw [partitionEncoded_multi base sizeMB ceilingMB total hlt i (by omega)]
      have hstep : (i + 1) * ceilingDiv total (numParts sizeMB ceilingMB) ≤
          (numParts sizeMB ceilingMB - 1) * ceilingDiv total (numParts sizeMB ceilingMB) :=
        mul_le_mul_right' (by omega) _
      have hmin : min ((i + 1) * ceilingDiv total (numParts sizeMB ceilingMB)) total =
          (i + 1) * ceilingDiv total (numParts sizeMB ceilingMB) :=
        min_eq_left (le_trans hstep hfit)
      simp only [hmin]
      rw [Nat.add_mul, Nat.one_mul, Nat.add_sub_cancel_left]
  · rw [partitionEncoded, if_neg (by norm_num : ¬(37 : ℚ) ≤ 15)]
    simp only [numParts_37_15]
    rfl

/-- Witness for C2 at a 10 MB file (single Part) and a 37 MB file
(three Parts) under the 15 MB ceiling. -/
theorem C2_partition_rule_witness :
    partitionEncoded "digest" 10 15 100000 = [⟨"digest.mp3", 0, 100000⟩] ∧
    (partitionEncoded "digest" 37 15 100000).map Part.filename =
      ["digest_part_1_of_3.mp3", "digest_part_2_of_3.mp3", "digest_part_3_of_3.mp3"] := by
  constructor
  · exact (C2_partition_rule "digest" 10 15 100000).1 (by norm_num)
  · have h := (C2_partition_rule "digest" 37 15 100000).2.2
    rw [h]
    rfl

/-- Counterexample to claim C2 as stated: splitting a 1 ms audio whose
encoded size is 37 MB under a 15 MB ceiling gives 3 Parts with slice duration
`ceil(1 / 3) = 1`, but the middle Part (index 1, not the last) covers
`[1, min (2, 1)) = [1, 1)` and so has duration 0, not the claimed uniform
slice duration. -/
theorem C2_partition_cex :
    numParts 37 15 = 3 ∧
    ceilingDiv 1 (numParts 37 15) = 1 ∧
    (partitionEncoded "digest" 37 15 1).length = 3 ∧
    (partitionEncoded "digest" 37 15 1).getD 1 default =
      ⟨"digest_part_2_of_3.mp3", 1, 1⟩ ∧
    ((partitionEncoded "digest" 37 15 1).getD 1 default).endMs -
      ((partitionEncoded "digest" 37 15 1).getD 1 default).startMs = 0 := by
  have hpe : partitionEncoded "digest" 37 15 1 =
      (List.range 3).map (fun i =>
        ⟨partFilename "digest" (i + 1) 3, i * 1, min ((i + 1) * 1) 1⟩) := by
    rw [partitionEncoded, if_neg (by norm_num : ¬(37 : ℚ) ≤ 15)]
    simp only [numParts_37_15]
    rfl
  refine ⟨numParts_37_15, by rw [numParts_37_15]; rfl, ?_, ?_, ?_⟩ <;> rw [hpe] <;> rfl

/-- The time slice (in ms, as a set of milliseconds) covered by the `i`-th
chunk of the split: `audio[i * d : min ((i + 1) * d, len(audio))]`. -/
def sliceSet (total n i : Nat) : Finset Nat :=
  Finset.Ico (i * ceilingDiv total n) (min ((i + 1) * ceilingDiv total n) total)

lemma sliceSet_disjoint_of_lt (total n : Nat) {i j : Nat} (hij : i < j) :
    Disjoint (sliceSet total n i) (sliceSet total n j) := by
  rw [Finset.disjoint_left]
  intro x hxi hxj
  rw [sliceSet, Finset.mem_Ico] at hxi hxj
  have h1 : x < (i + 1) * ceilingDiv total n :=
    lt_of_lt_of_le hxi.2 (min_le_left _ _)
  have h2 : (i + 1) * ceilingDiv total n ≤ j * ceilingDiv total n :=
    mul_le_mul_right' (by omega) _
  exact absurd (lt_of_lt_of_le h1 (le_trans h2 hxj.1)) (lt_irrefl x)

/-- Claim C10: for any `num_parts = n ≥ 1` and slice duration
`d = ceil(total / n)`, the produced slices `[i * d, min ((i + 1) * d, total))`
are pairwise disjoint, their union is exactly `[0, total)` (no audio dropped
or duplicated), and the last slice ends exactly at the total duration. -/
theorem C10_slices_partition (total n : Nat) (hn : 1 ≤ n) :
    (∀ i j, i < n → j < n → i ≠ j →
      Disjoint (sliceSet total n i) (sliceSet total n j)) ∧
    (Finset.range n).biUnion (sliceSet total n) = Finset.Ico 0 total ∧
    min (n * ceilingDiv total n) total = total := by
  refine ⟨fun i j _ _ hne => ?_, ?_, min_eq_right (le_mul_ceilingDiv total n hn)⟩
  · rcases hne.lt_or_lt with h | h
    · exact sliceSet_disjoint_of_lt total n h
    · exact (sliceSet_disjoint_of_lt total n h).symm
  · ext x
    simp only [Finset.mem_biUnion, Finset.mem_range, sliceSet, Finset.mem_Ico,
      Nat.zero_le, true_and]
    constructor
    · rintro ⟨i, _, _, hx2⟩
      exact lt_of_lt_of_le hx2 (min_le_right _ _)
    · intro hx
      have htot : 0 < total := by omega
      have hd : 0 < ceilingDiv total n := by
        rw [ceilingDiv]
        exact Nat.div_pos (by omega) (by omega)
      refine ⟨x / ceilingDiv total n, ?_, Nat.div_mul_le_self x _, ?_⟩
      · rw [Nat.div_lt_iff_lt_mul hd]
        calc x < total := hx
          _ ≤ n * ceilingDiv total n := le_mul_ceilingDiv total n hn
      · refine lt_min ?_ hx
        calc x = ceilingDiv total n * (x / ceilingDiv total n) + x % ceilingDiv total n :=
              (Nat.div_add_mod x _).symm
          _ < ceilingDiv total n * (x / ceilingDiv total n) + ceilingDiv total n :=
              Nat.add_lt_add_left (Nat.mod_lt x hd) _
          _ = (x / ceilingDiv total n + 1) * ceilingDiv total n := by ring

/-- Witness for C10 at `total = 5`, `n = 2` (slices `[0, 3)` and `[3, 5)`). -/
theorem C10_slices_partition_witness :
    Disjoint (sliceSet 5 2 0) (sliceSet 5 2 1) ∧
    (Finset.range 2).biUnion (sliceSet 5 2) = Finset.Ico 0 5 ∧
    min (2 * ceilingDiv 5 2) 5 = 5 := by
  have h := C10_slices_partition 5 2 (by decide)
  exact ⟨h.1 0 1 (by decide) (by decide) (by decide), h.2.1, h.2.2⟩

/-! ### Chapter calculator: `_create_chapter_list`
(identical in `generate_audiobook.py` and `upload_mp3.py`) -/

/-- One `(title, text)` block handed to the pipeline. -/
structure TextBlock where
  title : String
  text : String
deriving DecidableEq, Inhabited

/-- A chapter of the full assembled audio: title and start time in ms (a
float in the source, an exact rational here). -/
structure Chapter where
  title : String
  startTimeMs : ℚ
deriving DecidableEq, Inhabited

/-- Character count of one block, `len(block["text"])`. -/
def blockChars (b : TextBlock) : Nat := b.text.length

/-- `total_chars = sum(len(block["text"]) for block in text_blocks)`. -/
def totalCharsOf (blocks : List TextBlock) : Nat := (blocks.map blockChars).sum

/-- Cumulative character count of the blocks before index `i`. -/
def charsBefore (blocks : List TextBlock) (i : Nat) : Nat :=
  ((blocks.take i).map blockChars).sum

/-- The loop body of `_create_chapter_list`: walks the blocks carrying
`cumulative_chars`, emitting
`(cumulative_chars / total_chars) * total_duration_ms` (or 0 when
`total_chars == 0`) for each block. -/
def createChapterListAux (totalDurationMs totalCh : Nat) :
    List TextBlock → Nat → List Chapter
  | [], _ => []
  | b :: rest, cum =>
    ⟨b.title, if 0 < totalCh then ((cum : ℚ) / totalCh) * totalDurationMs else 0⟩ ::
      createChapterListAux totalDurationMs totalCh rest (cum + blockChars b)

/-- `_create_chapter_list(total_duration_ms, text_blocks)`. -/
def createChapterList (totalDurationMs : Nat) (blocks : List TextBlock) :
    List Chapter :=
  createChapterListAux totalDurationMs (totalCharsOf blocks) blocks 0

lemma createChapterListAux_length (D tc : Nat) :
    ∀ (blocks : List TextBlock) (cum : Nat),
      (createChapterListAux D tc blocks cum).length = blocks.length := by
  intro blocks
  induction blocks with
  | nil => intro cum; rfl
  | cons b rest ih =>
    intro cum
    simp [createChapterListAux, ih]

lemma charsBefore_zero (blocks : List TextBlock) : charsBefore blocks 0 = 0 := rfl

lemma charsBefore_cons (b : TextBlock) (rest : List TextBlock) (i : Nat) :
    charsBefore (b :: rest) (i + 1) = blockChars b + charsBefore rest i := by
  simp [charsBefore]

/-- Elementwise description of the chapter-list loop. -/
lemma createChapterListAux_getD (D tc : Nat) :
    ∀ (blocks : List TextBlock) (cum i : Nat), i < blocks.length →
      (createChapterListAux D tc blocks cum).getD i default =
        ⟨(blocks.getD i default).title,
          if 0 < tc then (((cum + charsBefore blocks i : Nat) : ℚ) / tc) * D else 0⟩ := by
  intro blocks
  induction blocks with
  | nil => intro cum i hi; simp at hi
  | cons b rest ih =>
    intro cum i hi
    match i with
    | 0 => simp [createChapterListAux, charsBefore_zero]
    | i + 1 =>
      have hi' : i < rest.length := by
        simp only [List.length_cons] at hi
        omega
      simp only [createChapterListAux, List.getD_cons_succ, charsBefore_cons]
      rw [ih (cum + blockChars b) i hi']
      have hadd : cum + blockChars b + charsBefore rest i =
          cum + (blockChars b + charsBefore rest i) := by omega
      rw [hadd]

lemma createChapterList_getD (D : Nat) (blocks : List TextBlock) (i : Nat)
    (hi : i < blocks.length) :
    (createChapterList D blocks).getD i default =
      ⟨(blocks.getD i default).title,
        if 0 < totalCharsOf blocks
        then ((charsBefore blocks i : ℚ) / totalCharsOf blocks) * D
        else 0⟩ := by
  rw [createChapterList, createChapterListAux_getD D _ blocks 0 i hi]
  simp

/-- A string of `n` copies of a letter, to realise a block of a given
character length. -/
def repeatA (n : Nat) : String := String.mk (List.replicate n 'a')

/-- Claim C3: the full chapter list has one chapter per block in block order;
the start time of block `i` is
`(cumulative chars before i / total chars) * total_duration_ms`, every start
time is 0 when the total character count is 0, and blocks of lengths
100, 50, 50 with a total duration of 100000 ms get starts
`[0, 50000, 75000]`. -/
theorem C3_chapter_starts (D : Nat) (blocks : List TextBlock) :
    (createChapterList D blocks).length = blocks.length ∧
    (∀ i, i < blocks.length →
      (createChapterList D blocks).getD i default =
        ⟨(blocks.getD i default).title,
          if 0 < totalCharsOf blocks
          then ((charsBefore blocks i : ℚ) / totalCharsOf blocks) * D
          else 0⟩) ∧
    (totalCharsOf blocks = 0 → ∀ i, i < blocks.length →
      ((createChapterList D blocks).getD i default).startTimeMs = 0) ∧
    createChapterList 100000
        [⟨"A", repeatA 100⟩, ⟨"B", repeatA 50⟩, ⟨"C", repeatA 50⟩] =
      [⟨"A", 0⟩, ⟨"B", 50000⟩, ⟨"C", 75000⟩] := by
  refine ⟨createChapterListAux_length D (totalCharsOf blocks) blocks 0,
    fun i hi => createChapterList_getD D blocks i hi, fun h0 i hi => ?_, ?_⟩
  · rw [createChapterList_getD D blocks i hi]
    simp [h0]
  · have hlen : totalCharsOf
        [⟨"A", repeatA 100⟩, ⟨"B", repeatA 50⟩, ⟨"C", repeatA 50⟩] = 200 := rfl
    simp only [createChapterList, hlen, createChapterListAux, blockChars]
    norm_num
    refine ⟨by norm_num [repeatA], by norm_num [repeatA]⟩

/-- Witness for C3 at the three-block example. -/
theorem C3_chapter_starts_witness :
    createChapterList 100000
        [⟨"A", repeatA 100⟩, ⟨"B", repeatA 50⟩, ⟨"C", repeatA 50⟩] =
      [⟨"A", 0⟩, ⟨"B", 50000⟩, ⟨"C", 75000⟩] ∧
    (createChapterList 100000
        [⟨"A", repeatA 100⟩, ⟨"B", repeatA 50⟩, ⟨"C", repeatA 50⟩]).length = 3 :=
  ⟨(C3_chapter_starts 100000 []).2.2.2,
    by rw [(C3_chapter_starts 100000 []).2.2.2]; rfl⟩

lemma charsBefore_mono (blocks : List TextBlock) {i j : Nat} (hij : i ≤ j) :
    charsBefore blocks i ≤ charsBefore blocks j := by
  have hsplit : blocks.take j = blocks.take i ++ ((blocks.drop i).take (j - i)) := by
    rw [← List.take_add]
    congr 1
    omega
  rw [charsBefore, charsBefore, hsplit, List.map_append, List.sum_append]
  exact Nat.le_add_right _ _

/-- Claim C9: chapter start times produced by the full chapter calculation
are monotonically non-decreasing in block order. -/
theorem C9_chapter_starts_monotone (D : Nat) (blocks : List TextBlock)
    (i j : Nat) (hij : i ≤ j) (hj : j < blocks.length) :
    ((createChapterList D blocks).getD i default).startTimeMs ≤
      ((createChapterList D blocks).getD j default).startTimeMs := by
  have hi : i < blocks.length := lt_of_le_of_lt hij hj
  rw [createChapterList_getD D blocks i hi, createChapterList_getD D blocks j hj]
  by_cases htc : 0 < totalCharsOf blocks
  · simp only [htc, if_pos]
    have hcb : (charsBefore blocks i : ℚ) ≤ charsBefore blocks j := by
      exact_mod_cast charsBefore_mono blocks hij
    have htc' : (0 : ℚ) < totalCharsOf blocks := by exact_mod_cast htc
    have hD : (0 : ℚ) ≤ D := by positivity
    gcongr
  · simp [htc]

/-! ### Chapter re-slicing for one Part: `_create_metadata_for_chunk` -/

/-- A chapter of one Part as built by `_create_metadata_for_chunk`: its
re-based start time is in whole seconds,
`int((chapter["start_time_ms"] - chunk_start_ms) / 1000)` (the retained
starts are ≥ `chunk_start_ms`, so Python's `int` truncation is a floor). -/
structure ChunkChapter where
  title : String
  startTime : ℤ
deriving DecidableEq, Inhabited

/-- The retention test `chunk_start_ms <= chapter["start_time_ms"] < chunk_end_ms`. -/
def inChunkRange (chunkStartMs chunkEndMs : Nat) (c : Chapter) : Bool :=
  decide ((chunkStartMs : ℚ) ≤ c.startTimeMs) &&
    decide (c.startTimeMs < (chunkEndMs : ℚ))

/-- Re-basing of one retained chapter relative to the Part's start. -/
def rebaseChapter (chunkStartMs : Nat) (c : Chapter) : ChunkChapter :=
  ⟨c.title, Int.floor ((c.startTimeMs - (chunkStartMs : ℚ)) / 1000)⟩

/-- The chapters the loop in `_create_metadata_for_chunk` retains:
those with original start in `[chunk_start_ms, chunk_end_ms)`, where
`chunk_end_ms = chunk_start_ms + len(audio_chunk_segment)`, re-based, in
original order. -/
def retainedChapters (orig : List Chapter) (chunkStartMs chunkLenMs : Nat) :
    List ChunkChapter :=
  (orig.filter (inChunkRange chunkStartMs (chunkStartMs + chunkLenMs))).map
    (rebaseChapter chunkStartMs)

/-- The chapter list of one Part: the retained chapters, with a synthetic
chapter at time 0 (titled after the first retained chapter) inserted in
front when the list is non-empty, its first entry does not start at 0, and
no entry starts at 0. -/
def chunkChapterList (orig : List Chapter) (chunkStartMs chunkLenMs : Nat) :
    List ChunkChapter :=
  match retainedChapters orig chunkStartMs chunkLenMs with
  | [] => []
  | first :: rest =>
    if first.startTime ≠ 0 then
      if (first :: rest).all (fun c => c.startTime != 0) then
        ⟨first.title, 0⟩ :: first :: rest
      else first :: rest
    else first :: rest

/-- Everything retained appears in the Part's chapter list. -/
lemma retained_subset_chunkChapterList (orig : List Chapter)
    (cs len : Nat) {c : ChunkChapter} (hc : c ∈ retainedChapters orig cs len) :
    c ∈ chunkChapterList orig cs len := by
  rcases h : retainedChapters orig cs len with _ | ⟨first, rest⟩
  · rw [h] at hc; simp at hc
  · rw [h] at hc
    simp only [chunkChapterList, h]
    split
    · split
      · exact List.mem_cons_of_mem _ hc
      · exact hc
    · exact hc

/-- Claim C4, amended: the Part's chapter list contains the re-based version
of every original chapter whose start lies in
`[chunk_start_ms, chunk_start_ms + chunk_len_ms)`; everything in it is
either such a re-based retained chapter or the synthetic chapter at time 0
titled after the first retained chapter; and it contains a chapter with
start time 0 whenever at least one original chapter is retained
(not: whenever the time range is non-empty). -/
theorem C4_chunk_chapter_rebase (orig : List Chapter) (cs len : Nat) :
    (∀ ch ∈ orig, (cs : ℚ) ≤ ch.startTimeMs →
      ch.startTimeMs < ((cs + len : Nat) : ℚ) →
      rebaseChapter cs ch ∈ chunkChapterList orig cs len) ∧
    (∀ c ∈ chunkChapterList orig cs len,
      c ∈ retainedChapters orig cs len ∨
        (c.startTime = 0 ∧ ∃ f,
          (retainedChapters orig cs len).head? = some f ∧ c.title = f.title)) ∧
    (retainedChapters orig cs len ≠ [] →
      ∃ c ∈ chunkChapterList orig cs len, c.startTime = 0) := by
  refine ⟨fun ch hch h1 h2 => ?_, fun c hc => ?_, fun hne => ?_⟩
  · refine retained_subset_chunkChapterList orig cs len ?_
    rw [retainedChapters]
    refine List.mem_map_of_mem _ (List.mem_filter.mpr ⟨hch, ?_⟩)
    have h2' : ch.startTimeMs < (cs : ℚ) + len := by
      push_cast at h2
      exact h2
    simp [inChunkRange, h1, h2']
  · rcases h : retainedChapters orig cs len with _ | ⟨first, rest⟩
    · simp only [chunkChapterList, h] at hc
      simp at hc
    · simp only [chunkChapterList, h] at hc
      split at hc
      · split at hc
        · rcases List.mem_cons.mp hc with hc0 | hcr
          · exact Or.inr ⟨by rw [hc0], first, rfl, by rw [hc0]⟩
          · exact Or.inl hcr
        · exact Or.inl hc
      · exact Or.inl hc
  · rcases h : retainedChapters orig cs len with _ | ⟨first, rest⟩
    · exact absurd h hne
    · simp only [chunkChapterList, h]
      by_cases h0 : first.startTime = 0
      · refine ⟨first, ?_, h0⟩
        rw [if_neg (by simp [h0])]
        exact List.mem_cons_self _ _
      · rw [if_pos h0]
        by_cases hall : ((first :: rest).all (fun c => c.startTime != 0)) = true
        · exact ⟨⟨first.title, 0⟩, by rw [if_pos hall]; exact List.mem_cons_self _ _, rfl⟩
        · rw [if_neg hall]
          rw [List.all_eq_true] at hall
          push_neg at hall
          obtain ⟨c, hcmem, hc0⟩ := hall
          refine ⟨c, hcmem, ?_⟩
          simpa using hc0

/-- Witness for C4: one chapter at 5000 ms, range `[4000, 7000)`; the
retained chapter is re-based to second 1 and a synthetic chapter at 0 is
inserted. -/
theorem C4_chunk_chapter_rebase_witness :
    rebaseChapter 4000 ⟨"A", 5000⟩ ∈
      chunkChapterList [⟨"A", (5000 : ℚ)⟩] 4000 3000 ∧
    ∃ c ∈ chunkChapterList [⟨"A", (5000 : ℚ)⟩] 4000 3000, c.startTime = 0 := by
  have h := C4_chunk_chapter_rebase [⟨"A", (5000 : ℚ)⟩] 4000 3000
  refine ⟨h.1 ⟨"A", 5000⟩ (List.mem_singleton.mpr rfl) (by norm_num) (by norm_num), ?_⟩
  refine h.2.2 ?_
  have hin : inChunkRange 4000 7000 ⟨"A", (5000 : ℚ)⟩ = true := by
    simp only [inChunkRange, Bool.and_eq_true, decide_eq_true_eq]
    norm_num
  have hret : retainedChapters [⟨"A", (5000 : ℚ)⟩] 4000 3000 =
      [rebaseChapter 4000 ⟨"A", 5000⟩] := by
    rw [retainedChapters]
    rw [show (4000 + 3000 : Nat) = 7000 from rfl]
    rw [List.filter_cons_of_pos hin, List.filter_nil]
    rfl
  rw [hret]
  simp

/-- Counterexample to claim C4 as stated: the range `[1000, 2000)` is
non-empty, but with a single original chapter starting at 0 ms nothing is
retained and the result is empty — it contains no chapter with start time 0
and no synthetic chapter is inserted. -/
theorem C4_chunk_chapter_rebase_cex :
    (0 : Nat) < 1000 ∧
    chunkChapterList [⟨"A", (0 : ℚ)⟩] 1000 1000 = [] ∧
    ¬ ∃ c ∈ chunkChapterList [⟨"A", (0 : ℚ)⟩] 1000 1000, c.startTime = 0 := by
  have hf : inChunkRange 1000 2000 ⟨"A", (0 : ℚ)⟩ = false := by
    simp [inChunkRange]
  have hret : retainedChapters [⟨"A", (0 : ℚ)⟩] 1000 1000 = [] := by
    simp [retainedChapters, List.filter, hf]
  have hout : chunkChapterList [⟨"A", (0 : ℚ)⟩] 1000 1000 = [] := by
    rw [chunkChapterList, hret]
  exact ⟨by norm_num, hout, by simp [hout]⟩

/-! ### Chunker: `validate_and_process_chunk`

`cleaned_chunk = re.sub(r"https?://\S+", "", chunk).strip()`; empty result
gives `[]`; a result within `max_len` is returned whole; otherwise a loop
repeatedly splits at `cleaned_chunk.rfind(" ", 0, max_len)` (the last space
before the limit), falling back to a hard cut at `max_len` when there is no
space, left-stripping the remainder each time. Text is modelled as
`List Char`; the whitespace set is the ASCII part of Python's. -/

/-- ASCII whitespace as recognised by Python's `str.strip` and regex `\S`. -/
def isPyWs (c : Char) : Bool :=
  c == ' ' || c == '\t' || c == '\n' || c == '\r' || c == '\x0b' || c == '\x0c'

/-- Length of the maximal non-whitespace prefix: what the greedy `\S+`
consumes. -/
def takeNonWsLen : List Char → Nat
  | [] => 0
  | c :: cs => if isPyWs c then 0 else takeNonWsLen cs + 1

/-- Length of the match of `https?://\S+` at the head of the text, 0 when
there is no match (the optional `s` is taken greedily, and `\S+` needs at
least one character). -/
def urlMatchLen (cs : List Char) : Nat :=
  match cs with
  | 'h' :: 't' :: 't' :: 'p' :: 's' :: ':' :: '/' :: '/' :: rest =>
    if takeNonWsLen rest = 0 then 0 else 8 + takeNonWsLen rest
  | 'h' :: 't' :: 't' :: 'p' :: ':' :: '/' :: '/' :: rest =>
    if takeNonWsLen rest = 0 then 0 else 7 + takeNonWsLen rest
  | _ => 0

/-- Left-to-right scan of `re.sub(r"https?://\S+", "", chunk)`: `skip` is the
number of characters of a current match still to be deleted; at `skip = 0`
the regex is tried at the current position, and on a match of length `n` the
scan resumes after the match (a structural reformulation of removing the
matched substring and continuing at the match end). -/
def stripUrlsGo : List Char → Nat → List Char
  | [], _ => []
  | _ :: cs, skip + 1 => stripUrlsGo cs skip
  | c :: cs, 0 =>
    if urlMatchLen (c :: cs) = 0 then c :: stripUrlsGo cs 0
    else stripUrlsGo cs (urlMatchLen (c :: cs) - 1)

/-- `re.sub(r"https?://\S+", "", chunk)`. -/
def stripUrls (cs : List Char) : List Char := stripUrlsGo cs 0

/-- Python `str.lstrip()`. -/
def lstripWs (cs : List Char) : List Char := cs.dropWhile isPyWs

/-- Python `str.rstrip()`. -/
def rstripWs (cs : List Char) : List Char := (cs.reverse.dropWhile isPyWs).reverse

/-- Python `str.strip()`. -/
def stripWs (cs : List Char) : List Char := rstripWs (lstripWs cs)

/-- `text.rfind(" ", 0, bound)` restricted to a prefix: the last index of an
ASCII space in the list, `none` when there is none (the source's `-1`). -/
def lastSpacePos : List Char → Option Nat
  | [] => none
  | c :: cs =>
    match lastSpacePos cs with
    | some j => some (j + 1)
    | none => if c == ' ' then some 0 else none

lemma lstripWs_length_le (cs : List Char) : (lstripWs cs).length ≤ cs.length :=
  (List.dropWhile_suffix isPyWs).sublist.length_le

lemma lstripWs_cons_of_ws {c : Char} (cs : List Char) (h : isPyWs c = true) :
    lstripWs (c :: cs) = lstripWs cs := by
  simp [lstripWs, List.dropWhile_cons, h]

lemma lastSpacePos_lt : ∀ (l : List Char) (i : Nat),
    lastSpacePos l = some i → i < l.length := by
  intro l
  induction l with
  | nil => intro i h; simp [lastSpacePos] at h
  | cons c cs ih =>
    intro i h
    rcases hcs : lastSpacePos cs with _ | j
    · rw [lastSpacePos, hcs] at h
      by_cases hc : (c == ' ') = true
      · rw [if_pos hc] at h
        cases h
        simp
      · rw [if_neg hc] at h
        cases h
    · rw [lastSpacePos, hcs] at h
      cases h
      have := ih j hcs
      simp only [List.length_cons]
      omega

lemma lastSpacePos_zero_head : ∀ (l : List Char),
    lastSpacePos l = some 0 → ∃ t, l = ' ' :: t := by
  intro l h
  match l with
  | [] => simp [lastSpacePos] at h
  | c :: cs =>
    rcases hcs : lastSpacePos cs with _ | j
    · rw [lastSpacePos, hcs] at h
      by_cases hc : (c == ' ') = true
      · exact ⟨cs, by rw [eq_of_beq hc]⟩
      · rw [if_neg hc] at h
        cases h
    · rw [lastSpacePos, hcs] at h
      cases h

/-- The while-loop of `validate_and_process_chunk` for
`max_len = m1 + 1 ≥ 1` (the source diverges for `max_len = 0`, which no
claim covers): while the text exceeds `max_len`, split at the last space
before the limit or hard-cut at the limit, left-strip the remainder, and
finally append the remainder. -/
def splitLoop (m1 : Nat) (cleaned : List Char) : List (List Char) :=
  if hfit : cleaned.length ≤ m1 + 1 then [cleaned]
  else
    match hsp : lastSpacePos (cleaned.take (m1 + 1)) with
    | some i => cleaned.take i :: splitLoop m1 (lstripWs (cleaned.drop i))
    | none => cleaned.take (m1 + 1) :: splitLoop m1 (lstripWs (cleaned.drop (m1 + 1)))
termination_by cleaned.length
decreasing_by
  · by_cases hi : i = 0
    · subst hi
      obtain ⟨t, ht⟩ := lastSpacePos_zero_head _ hsp
      rw [List.drop_zero]
      rcases cleaned with _ | ⟨c, cs⟩
      · simp at hfit
      · rw [List.take_succ_cons] at ht
        injection ht with h1 h2
        rw [h1, lstripWs_cons_of_ws cs (by decide)]
        have := lstripWs_length_le cs
        simp only [List.length_cons]
        omega
    · have hle := lstripWs_length_le (cleaned.drop i)
      rw [List.length_drop] at hle
      omega
  · have hle := lstripWs_length_le (cleaned.drop (m1 + 1))
    rw [List.length_drop] at hle
    omega

/-- `validate_and_process_chunk(chunk, max_len)`; claims use
`max_len ≥ 1`. -/
def validateAndProcessChunk (chunk : List Char) (maxLen : Nat) :
    List (List Char) :=
  let cleaned := stripWs (stripUrls chunk)
  if cleaned.isEmpty then []
  else if cleaned.length ≤ maxLen then [cleaned]
  else splitLoop (maxLen - 1) cleaned

/-- Every piece the split loop emits has length at most `m1 + 1`. -/
lemma splitLoop_length_le (m1 : Nat) (cleaned : List Char) :
    ∀ c ∈ splitLoop m1 cleaned, c.length ≤ m1 + 1 := by
  induction cleaned using splitLoop.induct m1 with
  | case1 cleaned hfit =>
    intro c hc
    rw [splitLoop, dif_pos hfit] at hc
    rw [List.mem_singleton.mp hc]
    exact hfit
  | case2 cleaned hfit i hsp ih =>
    intro c hc
    rw [splitLoop, dif_neg hfit, hsp] at hc
    rcases List.mem_cons.mp hc with hc0 | hcr
    · have hlt := lastSpacePos_lt _ _ hsp
      rw [List.length_take] at hlt
      rw [hc0]
      have := List.length_take_le i cleaned
      omega
    · exact ih c hcr
  | case3 cleaned hfit hsp ih =>
    intro c hc
    rw [splitLoop, dif_neg hfit, hsp] at hc
    rcases List.mem_cons.mp hc with hc0 | hcr
    · rw [hc0]
      exact List.length_take_le _ _
    · exact ih c hcr

/-- Claim C5: for `max_chars ≥ 1`, every chunk emitted by
`validate_and_process_chunk` has length at most `max_chars`: an over-long
unit is broken at the last space before the limit, or hard-cut at the limit
when no space exists, until the remainder fits. -/
theorem C5_chunk_length_bound (chunk : List Char) (maxLen : Nat)
    (hm : 1 ≤ maxLen) :
    ∀ c ∈ validateAndProcessChunk chunk maxLen, c.length ≤ maxLen := by
  intro c hc
  rw [validateAndProcessChunk] at hc
  by_cases hemp : (stripWs (stripUrls chunk)).isEmpty
  · rw [if_pos hemp] at hc
    simp at hc
  · rw [if_neg hemp] at hc
    by_cases hfit : (stripWs (stripUrls chunk)).length ≤ maxLen
    · rw [if_pos hfit] at hc
      rw [List.mem_singleton.mp hc]
      exact hfit
    · rw [if_neg hfit] at hc
      have := splitLoop_length_le (maxLen - 1) (stripWs (stripUrls chunk)) c hc
      omega

/-! ### Synthesis loop with the hard token ceiling, and the chunk pipeline
of `generate_and_upload_audio` -/

/-- `XTTS_TOKEN_LIMIT = 390`. -/
def XTTS_TOKEN_LIMIT : Nat := 390

/-- The synthesis loop over `final_chunks`: `tokenizer s` models
`tokenizer.encode(sentence, lang="en")` (`none` when it raises) and `tts s`
models `TTS_CLIENT.tts(...)` (`none` when it raises). A chunk is skipped
(`continue`) when tokenization raises, when the token count exceeds
`XTTS_TOKEN_LIMIT`, or when synthesis raises; otherwise its buffer is
appended to `audio_chunks`, in order. -/
def synthesizeChunks {α : Type} (tokenizer : List Char → Option (List Nat))
    (tts : List Char → Option (List α)) (chunks : List (List Char)) :
    List (List α) :=
  chunks.filterMap (fun s =>
    match tokenizer s with
    | none => none
    | some toks => if toks.length > XTTS_TOKEN_LIMIT then none else tts s)

/-- Claim C7: a chunk whose token count exceeds the 390-token ceiling (or
whose tokenization raises) is skipped and contributes no audio, while the
surrounding chunks are synthesized and appear in the concatenation in their
original order; a within-limit chunk contributes its buffer in place. -/
theorem C7_token_limit_skip {α : Type}
    (tokenizer : List Char → Option (List Nat))
    (tts : List Char → Option (List α)) (pre post : List (List Char))
    (bad good : List Char) (buf : List α)
    (hbad : tokenizer bad = none ∨
      ∃ toks, tokenizer bad = some toks ∧ toks.length > 390)
    (hgood : ∃ toks, tokenizer good = some toks ∧ toks.length ≤ 390)
    (hbuf : tts good = some buf) :
    synthesizeChunks tokenizer tts (pre ++ bad :: post) =
      synthesizeChunks tokenizer tts pre ++ synthesizeChunks tokenizer tts post ∧
    synthesizeChunks tokenizer tts (pre ++ good :: post) =
      synthesizeChunks tokenizer tts pre ++
        buf :: synthesizeChunks tokenizer tts post := by
  obtain ⟨gtoks, hg1, hg2⟩ := hgood
  constructor
  · rcases hbad with hb | ⟨toks, hb1, hb2⟩
    · simp only [synthesizeChunks, List.filterMap_append, List.filterMap_cons, hb]
    · have hskip : (if toks.length > XTTS_TOKEN_LIMIT then none else tts bad) = none :=
        if_pos (by simpa [XTTS_TOKEN_LIMIT] using hb2)
      simp only [synthesizeChunks, List.filterMap_append, List.filterMap_cons,
        hb1, hskip]
  · have hkeep : (if gtoks.length > XTTS_TOKEN_LIMIT then none else tts good) =
        some buf := by
      rw [if_neg (by simp only [XTTS_TOKEN_LIMIT]; omega), hbuf]
    simp only [synthesizeChunks, List.filterMap_append, List.filterMap_cons,
      hg1, hkeep]

/-- Witness for C7: the tokenizer counts one token per character; a
391-character chunk between two short chunks is dropped, the neighbours
stay, in order. -/
theorem C7_token_limit_skip_witness :
    synthesizeChunks (fun s => some (List.replicate s.length 0))
        (fun s => some s)
        (["ok".toList] ++ List.replicate 391 'a' :: ["ok".toList]) =
      synthesizeChunks (fun s => some (List.replicate s.length 0))
        (fun s => some s) ["ok".toList] ++
      synthesizeChunks (fun s => some (List.replicate s.length 0))
        (fun s => some s) ["ok".toList] :=
  (C7_token_limit_skip (fun s => some (List.replicate s.length 0))
    (fun s => some s) ["ok".toList] ["ok".toList]
    (List.replicate 391 'a') ("ok".toList) ("ok".toList)
    (Or.inr ⟨_, rfl, by rw [List.length_replicate, List.length_replicate]; omega⟩)
    ⟨_, rfl, by rw [List.length_replicate]; decide⟩ rfl).1

/-- The chunk construction of `generate_and_upload_audio`:
`paragraphs = text_content.split("\n")`; `initial_chunks` collects the
sentence units of each non-blank paragraph (sentence segmentation is the
synthesizer's `split_into_sentences`, an external collaborator passed as a
parameter); `final_chunks` maps `validate_and_process_chunk` (default
`max_len = 250`) over them. -/
def finalChunks (splitSentences : List Char → List (List Char))
    (text : List Char) : List (List Char) :=
  (((text.splitOn '\n').filter
      (fun p => !(stripWs p).isEmpty)).flatMap splitSentences).flatMap
    (fun c => validateAndProcessChunk c 250)

/-- The audio buffers synthesized for one date's text. -/
def pipelineAudioBufs {α : Type} (splitSentences : List Char → List (List Char))
    (tokenizer : List Char → Option (List Nat))
    (tts : List Char → Option (List α)) (text : List Char) : List (List α) :=
  synthesizeChunks tokenizer tts (finalChunks splitSentences text)

/-- The Parts produced by `generate_and_upload_audio` for one date:
`if not text_content.strip(): return []` (no audio, no Parts); if
`audio_chunks` ends up empty, `return []`; otherwise the partitioner runs on
the encoded audio. -/
def pipelineParts {α : Type} (splitSentences : List Char → List (List Char))
    (tokenizer : List Char → Option (List Nat))
    (tts : List Char → Option (List α)) (text : List Char)
    (sizeMB ceilingMB : ℚ) (totalDurationMs : Nat) (baseName : String) :
    List Part :=
  if (stripWs text).isEmpty then []
  else if (pipelineAudioBufs splitSentences tokenizer tts text).isEmpty then []
  else partitionEncoded baseName sizeMB ceilingMB totalDurationMs

/-- Claim C8: a unit that is empty, whitespace-only or URL-only (nothing
remains after URL stripping and trimming) yields zero chunks; when every
sentence unit of the input is such, no chunks, no audio and no Parts are
produced; and a whitespace-only input short-circuits to no Parts at once. -/
theorem C8_empty_input_no_output {α : Type}
    (splitSentences : List Char → List (List Char))
    (tokenizer : List Char → Option (List Nat))
    (tts : List Char → Option (List α)) (text : List Char)
    (sizeMB ceilingMB : ℚ) (total : Nat) (base : String) :
    (∀ chunk maxLen, stripWs (stripUrls chunk) = [] →
      validateAndProcessChunk chunk maxLen = []) ∧
    ((∀ p ∈ text.splitOn '\n', ∀ u ∈ splitSentences p,
        stripWs (stripUrls u) = []) →
      finalChunks splitSentences text = [] ∧
      pipelineAudioBufs splitSentences tokenizer tts text = [] ∧
      pipelineParts splitSentences tokenizer tts text sizeMB ceilingMB total base = []) ∧
    ((stripWs text).isEmpty = true →
      pipelineParts splitSentences tokenizer tts text sizeMB ceilingMB total base = []) := by
  have hchunk : ∀ (chunk : List Char) (maxLen : Nat),
      stripWs (stripUrls chunk) = [] →
      validateAndProcessChunk chunk maxLen = [] := by
    intro chunk maxLen h
    rw [validateAndProcessChunk]
    simp [h]
  refine ⟨hchunk, fun hall => ?_, fun hws => ?_⟩
  · have hfc : finalChunks splitSentences text = [] := by
      rw [finalChunks, List.flatMap_eq_nil_iff]
      intro u hu
      rw [List.mem_flatMap] at hu
      obtain ⟨p, hp, hup⟩ := hu
      rw [List.mem_filter] at hp
      exact hchunk u 250 (hall p hp.1 u hup)
    have haudio : pipelineAudioBufs splitSentences tokenizer tts text = [] := by
      rw [pipelineAudioBufs, hfc]
      rfl
    refine ⟨hfc, haudio, ?_⟩
    rw [pipelineParts]
    by_cases hws : (stripWs text).isEmpty
    · rw [if_pos hws]
    · rw [if_neg hws, haudio]
      simp
  · rw [pipelineParts, if_pos hws]

/-- Witness for C8: a URL-only input produces no chunks, no audio and no
Parts (with the identity sentence segmentation and any synthesizer). -/
theorem C8_empty_input_no_output_witness :
    validateAndProcessChunk ("https://example.com".toList) 250 = [] ∧
    finalChunks (fun p => [p]) ("https://example.com".toList) = [] ∧
    pipelineParts (α := Nat) (fun p => [p]) (fun _ => some [])
      (fun _ => some []) ("https://example.com".toList) 37 15 100000 "digest" = [] := by
  have h := C8_empty_input_no_output (α := Nat) (fun p => [p]) (fun _ => some [])
    (fun _ => some []) ("https://example.com".toList) 37 15 100000 "digest"
  have hurl : stripWs (stripUrls ("https://example.com".toList)) = [] := by decide
  have hsplit : List.splitOn '\n' ("https://example.com".toList) =
      ["https://example.com".toList] := by decide
  have hall := h.2.1 (by
    intro p hp u hu
    rw [hsplit] at hp
    have hp' : p = "https://example.com".toList := List.mem_singleton.mp hp
    have hu' : u = p := List.mem_singleton.mp hu
    rw [hu', hp']
    exact hurl)
  exact ⟨h.1 _ 250 hurl, hall.1, hall.2.2⟩

/-- Witness for C5: an input that triggers both a space break and a hard
cut, with `max_chars = 4`. -/
theorem C5_chunk_length_bound_witness :
    ((validateAndProcessChunk ("ab cdefgh i".toList) 4).all
      (fun c => decide (c.length ≤ 4))) = true := by
  rw [List.all_eq_true]
  intro c hc
  simpa using C5_chunk_length_bound ("ab cdefgh i".toList) 4 (by decide) c hc

/-- Witness for C9 at the three-block example, indices 0 ≤ 2. -/
theorem C9_chapter_starts_monotone_witness :
    ((createChapterList 100000
        [⟨"A", repeatA 100⟩, ⟨"B", repeatA 50⟩, ⟨"C", repeatA 50⟩]).getD 0
          default).startTimeMs ≤
      ((createChapterList 100000
          [⟨"A", repeatA 100⟩, ⟨"B", repeatA 50⟩, ⟨"C", repeatA 50⟩]).getD 2
            default).startTimeMs :=
  C9_chapter_starts_monotone 100000 _ 0 2 (by decide) (by decide)

end AudioDigest
